import Mathlib

/-!
Verification of the pssg static-site generator core
(`internal/pssg/...` of supermodeltools/arch-docs).

The Go code is shallowly embedded: Go strings are modelled as Lean
`String`/`List Char` (the corpus is ASCII; `strings.ToLower` and
`unicode.ToUpper`/`IsLetter` are modelled on their ASCII fragment),
Go maps are modelled as association lists (first-match lookup mirrors
the unique-key property of a Go map), Go `interface{}` values as the
inductive `GoValue`, and Go slices as Lean lists.  Functions that Go
writes as loops are written as structural recursions or folds over the
same data in the same order.
-/

/-- Model of the subset of Go `interface{}` values that flows through the
taxonomy builder and the enrichment-override extractor: strings, `[]string`,
`[]interface{}`, `map[string]interface{}`, and anything else (numbers,
booleans, nil, ...), which every type switch in the embedded code ignores. -/
inductive GoValue where
  | str (s : String)
  | strs (l : List String)
  | arr (l : List GoValue)
  | obj (fields : List (String × GoValue))
  | other

/-- Go map lookup `v, ok := m[k]` on an association-list model.
Keys of a Go map are unique, so first-match lookup is faithful. -/
def lookupGo {α : Type} : List (String × α) → String → Option α
  | [], _ => none
  | (k, v) :: rest, key => if k = key then some v else lookupGo rest key

/-- Model of `entity.Entity` (internal/pssg/entity): only the fields the
verified claims read (`Slug`, `Fields`); `SourceFile`, `Sections` and `Body`
are render-only and omitted. -/
structure Entity where
  Slug : String
  Fields : List (String × GoValue)

/-! ### entity.ToSlug (internal/pssg/entity/slug.go)

`ToSlug` lowercases, replaces each maximal run matching `[^a-z0-9]+` by a
single `-`, and trims leading/trailing `-`. -/

/-- True exactly on the characters the regexp `[^a-z0-9]+` does NOT match. -/
def isSlugChar (c : Char) : Bool :=
  (97 ≤ c.toNat && c.toNat ≤ 122) || (48 ≤ c.toNat && c.toNat ≤ 57)

/-- ASCII fragment of Go `strings.ToLower`, one character at a time
(a non-ASCII rune is not in `[a-z0-9]` and is collapsed by `squashRuns`
either way). -/
def goToLower (c : Char) : Char :=
  if 65 ≤ c.toNat ∧ c.toNat ≤ 90 then Char.ofNat (c.toNat + 32) else c

/-- The `nonAlnum.ReplaceAllString(s, "-")` step: replace every maximal run
of non-`[a-z0-9]` characters by a single `-`.  The boolean flag records
whether the scan is inside such a run, making the recursion structural. -/
def squashRuns : List Char → Bool → List Char
  | [], _ => []
  | c :: cs, true => if isSlugChar c then c :: squashRuns cs false else squashRuns cs true
  | c :: cs, false =>
    if isSlugChar c then c :: squashRuns cs false else '-' :: squashRuns cs true

/-- Go `strings.Trim(s, "-")`: drop leading and trailing `-` characters. -/
def trimHyphens (cs : List Char) : List Char :=
  ((cs.dropWhile (· = '-')).reverse.dropWhile (· = '-')).reverse

/-- Model of `entity.ToSlug`. -/
def ToSlug (s : String) : String :=
  ⟨trimHyphens (squashRuns (s.data.map goToLower) false)⟩

/-! ### loader path helpers and deriveSlug (internal/pssg/loader/markdown.go) -/

/-- Go `filepath.Base` restricted to the paths the loader builds
(`filepath.Join(dataDir, name)` with a plain file name): the last
`/`-separated component. -/
def goBase (path : String) : String :=
  ⟨(path.data.reverse.takeWhile (· ≠ '/')).reverse⟩

/-- Go `filepath.Ext` on a base name: the suffix beginning at the final dot,
empty when the name has no dot. -/
def goExt (s : String) : String :=
  if s.data.contains '.'
  then ⟨'.' :: (s.data.reverse.takeWhile (· ≠ '.')).reverse⟩
  else ""

/-- Go `strings.TrimSuffix`. -/
def goTrimSuffix (s suf : String) : String :=
  if suf.data.isSuffixOf s.data
  then ⟨s.data.take (s.data.length - suf.data.length)⟩
  else s

/-- Go `strings.HasPrefix`. -/
def goHasPrefix (s t : String) : Bool :=
  t.data.isPrefixOf s.data

/-- Model of `(*MarkdownLoader).deriveSlug`; `source` is
`Config.Data.EntitySlug.Source` (`"filename"` or `"field:<name>"`).
When the source is `field:<name>` and the frontmatter has that field as a
string, the slug is `ToSlug` of it; in every other case it is the base
filename with its extension trimmed — NOT passed through `ToSlug`. -/
def deriveSlug (source : String) (path : String) (fields : List (String × GoValue)) : String :=
  match goHasPrefix source "field:", lookupGo fields (⟨source.data.drop 6⟩ : String) with
  | true, some (GoValue.str s) => ToSlug s
  | _, _ => goTrimSuffix (goBase path) (goExt (goBase path))

/-! ### Taxonomy builder (internal/pssg/taxonomy/taxonomy.go) -/

/-- Model of `config.TaxonomyConfig`: the fields the taxonomy builder reads.
Template/description fields are render-only and omitted. -/
structure TaxonomyConfig where
  Name : String
  Label : String
  LabelSingular : String
  Field : String
  MultiValue : Bool
  MinEntities : Int
  Invert : Bool
  EnrichmentOverrideField : String

/-- Model of `taxonomy.Entry`. -/
structure Entry where
  Name : String
  Slug : String
  Entities : List Entity

/-- Model of `taxonomy.Taxonomy` (the `Config` copy is omitted). -/
structure Taxonomy where
  Name : String
  Label : String
  LabelSingular : String
  Entries : List Entry

/-- Model of `toStringSlice`: Go type switch over `[]string`,
`[]interface{}` (keeping only the strings) and `string`. -/
def toStringSlice : GoValue → List String
  | GoValue.strs l => l
  | GoValue.arr l =>
    l.filterMap (fun item => match item with
      | GoValue.str s => some s
      | _ => none)
  | GoValue.str s => [s]
  | _ => []

/-- Go `strings.Split` on a non-empty separator, over character lists.
The fuel argument (instantiated with the input length) only serves
structural termination; each step consumes at least one character. -/
def splitOnAuxGo (sep : List Char) : Nat → List Char → List Char → List (List Char)
  | _, [], acc => [acc.reverse]
  | 0, rest, acc => [acc.reverse ++ rest]
  | fuel + 1, c :: cs, acc =>
    if sep.isPrefixOf (c :: cs) then
      acc.reverse :: splitOnAuxGo sep fuel ((c :: cs).drop sep.length) []
    else
      splitOnAuxGo sep fuel cs (c :: acc)

/-- Go `strings.Split(s, sep)` for non-empty `sep`. -/
def goSplit (s sep : String) : List String :=
  (splitOnAuxGo sep.data s.data.length s.data []).map (fun cs => ⟨cs⟩)

/-- Model of `getEnrichmentOverrides`: supports two-part paths like
`ingredients[].normalizedName` over a list of objects, else a simple field
lookup fed to `toStringSlice`. -/
def getEnrichmentOverrides (data : List (String × GoValue)) (field : String) : List String :=
  match goSplit field "[]." with
  | [arrayField, subField] =>
    match lookupGo data arrayField with
    | some (GoValue.arr items) =>
      items.filterMap (fun item => match item with
        | GoValue.obj m =>
          match lookupGo m subField with
          | some (GoValue.str s) => if s = "" then none else some s
          | _ => none
        | _ => none)
    | _ => []
  | _ =>
    match lookupGo data field with
    | some v => toStringSlice v
    | none => []

/-- Reading the raw entity field (the non-override tail of `extractValues`):
multi-value fields go through `toStringSlice`; single-value fields must be a
non-empty string. -/
def rawFieldValues (e : Entity) (tc : TaxonomyConfig) : List String :=
  match lookupGo e.Fields tc.Field with
  | none => []
  | some v =>
    if tc.MultiValue then toStringSlice v
    else match v with
      | GoValue.str s => if s ≠ "" then [s] else []
      | _ => []

/-- Model of `extractValues`.  The Go guard `enrichmentData != nil` is
dropped: looking a key up in a nil Go map also yields not-ok, so the
semantics are unchanged. -/
def extractValues (e : Entity) (tc : TaxonomyConfig)
    (enrichmentData : List (String × List (String × GoValue))) : List String :=
  let fromOverride : List String :=
    if tc.EnrichmentOverrideField = "" then []
    else match lookupGo enrichmentData e.Slug with
      | some ed => getEnrichmentOverrides ed tc.EnrichmentOverrideField
      | none => []
  if fromOverride ≠ [] then fromOverride
  else rawFieldValues e tc

/-- The override-precedence rule exactly as the spec states it, used as the
refinement target for C5: if an override key is configured and the override
table has an entry for the entity's slug whose extraction yields a non-empty
value list, the values are exactly those; otherwise they are read from the
raw field. -/
def extractValuesSpec (e : Entity) (tc : TaxonomyConfig)
    (enrichmentData : List (String × List (String × GoValue))) : List String :=
  match lookupGo enrichmentData e.Slug with
  | some ed =>
    if tc.EnrichmentOverrideField ≠ ""
        ∧ getEnrichmentOverrides ed tc.EnrichmentOverrideField ≠ []
    then getEnrichmentOverrides ed tc.EnrichmentOverrideField
    else rawFieldValues e tc
  | none => rawFieldValues e tc

/-- One step of the grouping loop body `groups[slug].Entities = append(..., e)`
(creating the Entry on first sight of the slug, preserving the first value
as canonical display name). -/
def insertEntity : List Entry → String → String → Entity → List Entry
  | [], val, slug, e => [⟨val, slug, [e]⟩]
  | g :: gs, val, slug, e =>
    if g.Slug = slug then ⟨g.Name, g.Slug, g.Entities ++ [e]⟩ :: gs
    else g :: insertEntity gs val slug e

/-- The per-value step inside `buildOne`: slugify, discard empty slugs,
otherwise group. -/
def addOneValue (gs : List Entry) (e : Entity) (val : String) : List Entry :=
  let slug := ToSlug val
  if slug = "" then gs else insertEntity gs val slug e

/-- The grouping phase of `buildOne` (taxonomy.go:65-91).  Go iterates the
entity slice in order and accumulates a map keyed by slug; the model keeps
the groups in first-seen order (the map iteration order is irrelevant: C1
proves the final sorted output is invariant under any permutation). -/
def buildGroups (entities : List Entity) (tc : TaxonomyConfig)
    (enrichmentData : List (String × List (String × GoValue))) : List Entry :=
  entities.foldl (fun gs e =>
    let values := extractValues e tc enrichmentData
    if tc.Invert then gs
    else values.foldl (fun gs2 val => addOneValue gs2 e val) gs) []

/-- The min-entities filter of `buildOne` (`len(entry.Entities) >= tc.MinEntities`). -/
def filteredGroups (entities : List Entity) (tc : TaxonomyConfig)
    (enrichmentData : List (String × List (String × GoValue))) : List Entry :=
  (buildGroups entities tc enrichmentData).filter
    (fun g => tc.MinEntities ≤ (g.Entities.length : Int))

/-- Byte-wise lexicographic string comparison (Go `<`/`<=` on strings;
slugs are ASCII so character order equals byte order). -/
def strLeB : List Char → List Char → Bool
  | [], _ => true
  | _ :: _, [] => false
  | a :: as, b :: bs =>
    if a.toNat < b.toNat then true
    else if b.toNat < a.toNat then false
    else strLeB as bs

/-- Non-strict slug order on entries (the sort key of taxonomy.go:102-104). -/
def slugLe (a b : Entry) : Prop := strLeB a.Slug.data b.Slug.data = true

/-- Strict slug order: ascending and distinct. -/
def slugLt (a b : Entry) : Prop := slugLe a b ∧ a.Slug ≠ b.Slug

instance : DecidableRel slugLe := fun _ _ => inferInstanceAs (Decidable (_ = true))

/-- The `sort.Slice(entries, less: slug i < slug j)` step.  The comparator
keys (slugs) are pairwise distinct in every list this is applied to, so any
correct sorting algorithm produces this result. -/
def sortEntries (l : List Entry) : List Entry := List.insertionSort slugLe l

/-- Model of `buildOne`. -/
def buildOne (entities : List Entity) (tc : TaxonomyConfig)
    (enrichmentData : List (String × List (String × GoValue))) : Taxonomy :=
  ⟨tc.Name, tc.Label, tc.LabelSingular, sortEntries (filteredGroups entities tc enrichmentData)⟩

/-- Model of `BuildAll`. -/
def BuildAll (entities : List Entity) (taxConfigs : List TaxonomyConfig)
    (enrichmentData : List (String × List (String × GoValue))) : List Taxonomy :=
  taxConfigs.map (fun tc => buildOne entities tc enrichmentData)

/-! ### Letter grouping (taxonomy.go:247-281) -/

/-- Model of `taxonomy.LetterGroup`. -/
structure LetterGroup where
  Letter : String
  Entries : List Entry

/-- ASCII fragment of Go `unicode.ToUpper`. -/
def goToUpper (c : Char) : Char :=
  if 97 ≤ c.toNat ∧ c.toNat ≤ 122 then Char.ofNat (c.toNat - 32) else c

/-- ASCII fragment of Go `unicode.IsLetter`. -/
def goIsLetter (c : Char) : Bool :=
  (65 ≤ c.toNat && c.toNat ≤ 90) || (97 ≤ c.toNat && c.toNat ≤ 122)

/-- The bucket label of an entry: `none` for an empty display name (such
entries are skipped by the Go loop via `continue`), otherwise the first
character (first byte in Go; the corpus is ASCII) uppercased when it is a
letter, else the sentinel `#`. -/
def letterOf (entry : Entry) : Option String :=
  match entry.Name.data with
  | [] => none
  | c :: _ =>
    let first := goToUpper c
    some (if goIsLetter first then (⟨[first]⟩ : String) else "#")

/-- `groups[letter] = append(groups[letter], entry)` on the association-list
model: extend the first pair with the key, or create it at the end. -/
def appendToGroup : List (String × List Entry) → String → Entry → List (String × List Entry)
  | [], letter, e => [(letter, [e])]
  | (k, v) :: rest, letter, e =>
    if k = letter then (k, v ++ [e]) :: rest else (k, v) :: appendToGroup rest letter e

/-- One iteration of the grouping loop of `GroupByLetter`: skip empty names,
record a first-seen letter, append the entry to its bucket. -/
def addToLetterGroups (acc : List String × List (String × List Entry)) (entry : Entry) :
    List String × List (String × List Entry) :=
  match letterOf entry with
  | none => acc
  | some letter =>
    ((if (lookupGo acc.2 letter).isSome then acc.1 else acc.1 ++ [letter]),
      appendToGroup acc.2 letter entry)

/-- Non-strict byte-order comparison on strings, as a relation. -/
def goStrLe (a b : String) : Prop := strLeB a.data b.data = true

instance : DecidableRel goStrLe := fun _ _ => inferInstanceAs (Decidable (_ = true))

/-- Go `sort.Strings` (ascending byte order; keys are distinct wherever this
is applied, so any correct sort produces this result). -/
def sortStringsGo (l : List String) : List String := List.insertionSort goStrLe l

/-- Model of `taxonomy.GroupByLetter`. -/
def GroupByLetter (entries : List Entry) : List LetterGroup :=
  let acc := entries.foldl addToLetterGroups ([], [])
  (sortStringsGo acc.1).map (fun letter => ⟨letter, (lookupGo acc.2 letter).getD []⟩)

/-! ### Pagination (taxonomy.go:199-245) -/

/-- Model of `taxonomy.PageURL`. -/
structure PageURL where
  Number : Nat
  URL : String

/-- Model of `taxonomy.PaginationInfo`.  Go uses `int`; in the scope of the
verified claims (`page` between 1 and `TotalPages`, positive `perPage`) every
value is non-negative, so `Nat` is faithful. -/
structure PaginationInfo where
  CurrentPage : Nat
  TotalPages : Nat
  TotalItems : Nat
  StartIndex : Nat
  EndIndex : Nat
  PrevURL : String
  NextURL : String
  PageURLs : List PageURL

/-- Model of `taxonomy.HubPageURL`: page 1 omits the page-number suffix. -/
def HubPageURL (taxonomyName entrySlug : String) (page : Nat) : String :=
  if page = 1 then "/" ++ taxonomyName ++ "/" ++ entrySlug ++ ".html"
  else "/" ++ taxonomyName ++ "/" ++ entrySlug ++ "-page-" ++ toString page ++ ".html"

/-- Model of `taxonomy.ComputePagination`.  (For `perPage = 0` the Go code
would panic on division by zero; the claims assume a positive page size.) -/
def ComputePagination (entry : Entry) (page perPage : Nat) (taxonomyName : String) :
    PaginationInfo :=
  let total := entry.Entities.length
  let tp0 := (total + perPage - 1) / perPage
  let totalPages := if tp0 = 0 then 1 else tp0
  let start := (page - 1) * perPage
  let endIdx := if start + perPage > total then total else start + perPage
  ⟨page, totalPages, total, start, endIdx,
    (if 1 < page then HubPageURL taxonomyName entry.Slug (page - 1) else ""),
    (if page < totalPages then HubPageURL taxonomyName entry.Slug (page + 1) else ""),
    (List.range totalPages).map (fun i => ⟨i + 1, HubPageURL taxonomyName entry.Slug (i + 1)⟩)⟩

/-! ### Sitemap generation (internal/pssg/output/sitemap.go)

The XML serialization (`xml.MarshalIndent`) writes exactly one `<url>`
element per `SitemapEntry` of a `urlset` and one `<sitemap>` element per
reference of a `sitemapindex`, so a file's content is modelled by its
structured element list rather than the marshalled byte string. -/

/-- Model of `output.SitemapEntry`. -/
structure SitemapEntry where
  Loc : String
  Lastmod : String
  Priority : String
  ChangeFreq : String

/-- One `<sitemap>` reference inside the `sitemapindex` document
(the lowercase Go struct `sitemapEntry`). -/
structure SitemapIndexRef where
  Loc : String
  Lastmod : String

/-- The structured content of one emitted sitemap file: either a `urlset`
document or the `sitemapindex` document. -/
inductive SitemapContent where
  | urlset (entries : List SitemapEntry)
  | indexSet (refs : List SitemapIndexRef)

/-- Model of `output.SitemapFile`. -/
structure SitemapFile where
  Filename : String
  Content : SitemapContent

/-- Number of `<url>` entries a file carries (index references not counted). -/
def urlCount (f : SitemapFile) : Nat :=
  match f.Content with
  | SitemapContent.urlset l => l.length
  | SitemapContent.indexSet _ => 0

/-- The `<url>` entry list of a `urlset` file. -/
def fileEntries (f : SitemapFile) : List SitemapEntry :=
  match f.Content with
  | SitemapContent.urlset l => l
  | SitemapContent.indexSet _ => []

/-- Whether the file is the `sitemapindex` document. -/
def isIndexFile (f : SitemapFile) : Bool :=
  match f.Content with
  | SitemapContent.indexSet _ => true
  | SitemapContent.urlset _ => false

/-- The `<sitemap>` references of an index file. -/
def indexRefs (f : SitemapFile) : List SitemapIndexRef :=
  match f.Content with
  | SitemapContent.indexSet refs => refs
  | SitemapContent.urlset _ => []

/-- Model of `chunkEntries` (the Go loop `for i := 0; i < len; i += size`),
with a fuel argument for structural termination; the fuel (the input length)
suffices whenever `size ≥ 1`, which `GenerateSitemapFiles` guarantees (for
`size = 0` the Go loop would not terminate). -/
def chunkFuel {α : Type} (size : Nat) : Nat → List α → List (List α)
  | _, [] => []
  | 0, l => [l]
  | fuel + 1, x :: xs => (x :: xs).take size :: chunkFuel size fuel ((x :: xs).drop size)

/-- `chunkEntries entries size` splits `entries` into consecutive chunks of
`size` (last one possibly shorter). -/
def chunkEntries {α : Type} (entries : List α) (size : Nat) : List (List α) :=
  chunkFuel size entries.length entries

/-- `lastmod` stamp picked by `GenerateSitemapFiles` for the index: the
first accumulated entry's date (sitemap.go:58-61). -/
def firstLastmod (entries : List SitemapEntry) : String :=
  match entries with
  | [] => ""
  | e :: _ => e.Lastmod

/-- Model of `output.GenerateSitemapFiles`. -/
def GenerateSitemapFiles (entries : List SitemapEntry) (baseURL : String)
    (maxPerFile : Int) : List SitemapFile :=
  let m : Nat := if maxPerFile ≤ 0 then 50000 else maxPerFile.toNat
  if entries.length ≤ m then
    [⟨"sitemap.xml", SitemapContent.urlset entries⟩]
  else
    let chunks := chunkEntries entries m
    let files := chunks.enum.map (fun p =>
      (⟨"sitemap-" ++ toString (p.1 + 1) ++ ".xml", SitemapContent.urlset p.2⟩ : SitemapFile))
    let refs := chunks.enum.map (fun p =>
      (⟨baseURL ++ "/" ++ ("sitemap-" ++ toString (p.1 + 1) ++ ".xml"),
        firstLastmod entries⟩ : SitemapIndexRef))
    ⟨"sitemap.xml", SitemapContent.indexSet refs⟩ :: files

/-! ### Loader (markdown.go Load) and builder slug map (part of Builder.Build) -/

/-- One directory entry as seen by `(*MarkdownLoader).Load`: its name,
whether it is a directory, and the outcome of reading+parsing the file
(frontmatter parsing is the excluded collaborator; a failure makes the
loader skip the file with a warning). -/
structure MdFile where
  name : String
  isDir : Bool
  parsed : Except String (List (String × GoValue))

/-- Go `strings.HasSuffix`. -/
def goHasSuffix (s suf : String) : Bool :=
  suf.data.isSuffixOf s.data

/-- Model of `(*MarkdownLoader).Load` composed with `parseFile`: directory
entries and non-`.md` names are skipped, parse failures are skipped with a
warning, and every remaining file contributes one entity whose slug is
`deriveSlug` of the joined path and parsed fields (`filepath.Join` modelled
as `/`-concatenation).  No slug-uniqueness check is performed anywhere. -/
def loadEntities (source dataDir : String) (files : List MdFile) : List Entity :=
  files.filterMap (fun f =>
    if f.isDir || !(goHasSuffix f.name ".md") then none
    else match f.parsed with
      | Except.error _ => none
      | Except.ok fields =>
        some ⟨deriveSlug source (dataDir ++ "/" ++ f.name) fields, fields⟩)

/-- Whether `Load` keeps a directory entry: a regular `.md` file that
parses successfully. -/
def keptFile (f : MdFile) : Bool :=
  (!f.isDir && goHasSuffix f.name ".md") &&
    (match f.parsed with
      | Except.ok _ => true
      | Except.error _ => false)

/-- Go map assignment `m[k] = v` on the association-list model: overwrite
the first pair with the key, or add the pair at the end. -/
def insertOverwrite : List (String × Entity) → String → Entity → List (String × Entity)
  | [], k, v => [(k, v)]
  | (k0, v0) :: rest, k, v =>
    if k0 = k then (k0, v) :: rest else (k0, v0) :: insertOverwrite rest k v

/-- The slug-lookup map built by `Builder.Build` step 2
(`slugMap[e.Slug] = e` over the loaded entity slice, in order): a later
entity silently overwrites an earlier one with the same slug. -/
def buildSlugMap (entities : List Entity) : List (String × Entity) :=
  entities.foldl (fun m e => insertOverwrite m e.Slug e) []

/-! ### Build-pass failure semantics (Builder.Build, steps 11-13)

The render/write effects are embedded by their outcomes: each page
production is an `Except String Unit` input, and the pass's control flow is
modelled exactly as Go sequences it — entity failures are counted and the
loop continues; the taxonomy loop, the all-entities loop and the homepage
return the first error immediately. -/

/-- `Except.isOk` spelled out (kept explicit for kernel evaluation). -/
def exceptIsOk {ε α : Type} : Except ε α → Bool
  | Except.ok _ => true
  | Except.error _ => false

/-- Sequence a list of fallible steps, stopping at the first error (the
shape of every fatal `if err != nil { return err }` loop in `Build`). -/
def seqAll {ε : Type} : List (Except ε Unit) → Except ε Unit
  | [] => Except.ok ()
  | r :: rs =>
    match r with
    | Except.ok _ => seqAll rs
    | Except.error e => Except.error e

/-- Outcomes of the structural pages of one taxonomy, in the order
`renderTaxonomyPages` produces them: every hub page (each entry, each page;
render and write combined into one outcome), then the index page, then —
when the letter-page threshold gate is met — every letter page. -/
structure TaxOutcome where
  hubPages : List (Except String Unit)
  indexPage : Except String Unit
  hasLetters : Bool
  letterPages : List (Except String Unit)

/-- Model of `Builder.renderTaxonomyPages`: first error aborts. -/
def renderTaxonomyPages (t : TaxOutcome) : Except String Unit :=
  match seqAll t.hubPages with
  | Except.error e => Except.error e
  | Except.ok _ =>
    match t.indexPage with
    | Except.error e => Except.error e
    | Except.ok _ => if t.hasLetters then seqAll t.letterPages else Except.ok ()

/-- Model of the render phase of `Builder.Build` (steps 11, 12, 12b, 13):
entity-page outcomes are only counted (step 11 logs and increments
`entityErrors`, never returns); then the taxonomy loop, the all-entities
loop and the homepage each propagate their first error.  Returns the
entity-error count and the pass outcome. -/
def buildPass (entityResults : List (Except String Unit)) (taxonomies : List TaxOutcome)
    (allEntitiesPages : List (Except String Unit)) (homepage : Except String Unit) :
    Nat × Except String Unit :=
  let entityErrors := entityResults.countP (fun r => !exceptIsOk r)
  let structural : Except String Unit :=
    match seqAll (taxonomies.map renderTaxonomyPages) with
    | Except.error e => Except.error e
    | Except.ok _ =>
      match seqAll allEntitiesPages with
      | Except.error e => Except.error e
      | Except.ok _ => homepage
  (entityErrors, structural)

/-! ### Well-formedness lemmas about `ToSlug` -/

theorem head?_dropWhile_false {α : Type} (p : α → Bool) :
    ∀ l : List α, ∀ c ∈ (l.dropWhile p).head?, p c = false := by
  intro l
  induction l with
  | nil => intro c hc; simp [List.dropWhile] at hc
  | cons a as ih =>
    intro c hc
    by_cases ha : p a
    · rw [List.dropWhile_cons_of_pos ha] at hc
      exact ih c hc
    · rw [List.dropWhile_cons_of_neg ha] at hc
      simp only [List.head?_cons, Option.mem_def, Option.some.injEq] at hc
      subst hc
      exact Bool.eq_false_iff.mpr ha

theorem dropWhile_eq_self_of_head {α : Type} (p : α → Bool) (l : List α)
    (h : ∀ c ∈ l.head?, p c = false) : l.dropWhile p = l := by
  cases l with
  | nil => rfl
  | cons a as =>
    have := h a (by simp)
    rw [List.dropWhile_cons_of_neg (by simp [this])]

theorem squashRuns_chars : ∀ (cs : List Char) (b : Bool),
    ∀ c ∈ squashRuns cs b, isSlugChar c = true ∨ c = '-' := by
  intro cs
  induction cs with
  | nil => intro b c hc; cases b <;> simp [squashRuns] at hc
  | cons a as ih =>
    intro b c hc
    cases b <;> by_cases ha : isSlugChar a <;>
      simp only [squashRuns, if_pos, if_neg, ha, if_true, if_false] at hc
    · rcases List.mem_cons.mp hc with rfl | hc
      · exact Or.inl ha
      · exact ih false c hc
    · rcases List.mem_cons.mp hc with rfl | hc
      · exact Or.inr rfl
      · exact ih true c hc
    · rcases List.mem_cons.mp hc with rfl | hc
      · exact Or.inl ha
      · exact ih false c hc
    · exact ih true c hc

/-- In run-state `true` the next emitted character is a slug character:
a separator `-` is only emitted when entering a run from state `false`. -/
theorem squashRuns_true_head :
    ∀ cs : List Char, ∀ c ∈ (squashRuns cs true).head?, isSlugChar c = true := by
  intro cs
  induction cs with
  | nil => intro c hc; simp [squashRuns] at hc
  | cons a as ih =>
    intro c hc
    by_cases ha : isSlugChar a
    · simp only [squashRuns, if_pos ha, List.head?_cons, Option.mem_def,
        Option.some.injEq] at hc
      subst hc; exact ha
    · simp only [squashRuns, if_neg ha] at hc
      exact ih c hc

theorem squashRuns_no_adjacent : ∀ (cs : List Char) (b : Bool),
    (squashRuns cs b).Chain' (fun x y => ¬(x = '-' ∧ y = '-')) := by
  intro cs
  induction cs with
  | nil => intro b; cases b <;> simp [squashRuns]
  | cons a as ih =>
    intro b
    by_cases ha : isSlugChar a
    · have hslug : ∀ y ∈ (squashRuns as false).head?, ¬(a = '-' ∧ y = '-') := by
        intro y _ hcontra
        rcases hcontra with ⟨rfl, _⟩
        simp [isSlugChar] at ha
      cases b <;> simp only [squashRuns, if_pos ha] <;>
        exact List.Chain'.cons' (ih false) hslug
    · cases b
      · simp only [squashRuns, if_neg ha]
        refine List.Chain'.cons' (ih true) ?_
        intro y hy hcontra
        rcases hcontra with ⟨_, rfl⟩
        have := squashRuns_true_head as _ hy
        simp [isSlugChar] at this
      · simp only [squashRuns, if_neg ha]
        exact ih true

theorem trimHyphens_isPrefix_dropWhile (cs : List Char) :
    trimHyphens cs <+: cs.dropWhile (· = '-') := by
  unfold trimHyphens
  have h : ((cs.dropWhile (· = '-')).reverse.dropWhile (· = '-')) <:+
      (cs.dropWhile (· = '-')).reverse := List.dropWhile_suffix _
  have := List.reverse_prefix.mpr h
  simpa using this

theorem trimHyphens_contained (cs : List Char) : trimHyphens cs <:+: cs :=
  ((trimHyphens_isPrefix_dropWhile cs).isInfix).trans (List.dropWhile_suffix _).isInfix

theorem isPrefix_head {α : Type} {l₁ l₂ : List α} (h : l₁ <+: l₂) :
    ∀ c ∈ l₁.head?, l₂.head? = some c := by
  intro c hc
  obtain ⟨t, rfl⟩ := h
  cases l₁ with
  | nil => simp at hc
  | cons a as =>
    simp only [List.head?_cons, Option.mem_def, Option.some.injEq] at hc
    subst hc
    rfl

theorem trimHyphens_head (cs : List Char) :
    ∀ c ∈ (trimHyphens cs).head?, c ≠ '-' := by
  intro c hc
  have h2 := isPrefix_head (trimHyphens_isPrefix_dropWhile cs) c hc
  have h3 := head?_dropWhile_false (· = '-') cs c (by rw [h2]; rfl)
  simpa using h3

theorem trimHyphens_getLast (cs : List Char) :
    ∀ c ∈ (trimHyphens cs).getLast?, c ≠ '-' := by
  intro c hc
  unfold trimHyphens at hc
  rw [List.getLast?_reverse] at hc
  have h3 := head?_dropWhile_false (· = '-') (cs.dropWhile (· = '-')).reverse c hc
  simpa using h3

theorem goToLower_fixed {c : Char} (h : isSlugChar c = true ∨ c = '-') :
    goToLower c = c := by
  rcases h with h | rfl
  · simp only [isSlugChar, Bool.or_eq_true, Bool.and_eq_true, decide_eq_true_eq] at h
    unfold goToLower
    rw [if_neg]
    omega
  · rfl

theorem squashRuns_id : ∀ (cs : List Char) (b : Bool),
    (∀ c ∈ cs, isSlugChar c = true ∨ c = '-') →
    cs.Chain' (fun x y => ¬(x = '-' ∧ y = '-')) →
    (∀ c ∈ cs.head?, c = '-' → b = false) →
    squashRuns cs b = cs := by
  intro cs
  induction cs with
  | nil => intro b _ _ _; cases b <;> rfl
  | cons a as ih =>
    intro b hchars hchain hhead
    have has : ∀ c ∈ as, isSlugChar c = true ∨ c = '-' :=
      fun c hc => hchars c (List.mem_cons_of_mem a hc)
    by_cases ha : isSlugChar a
    · have hrec : squashRuns as false = as := by
        refine ih false has hchain.tail ?_
        intro c _ _
        rfl
      cases b <;> simp only [squashRuns, if_pos ha, hrec]
    · have ha' : a = '-' := by
        rcases hchars a (List.mem_cons_self a as) with h | h
        · exact absurd h ha
        · exact h
      have hb : b = false := hhead a (by simp) ha'
      subst hb
      have hrec : squashRuns as true = as := by
        refine ih true has hchain.tail ?_
        intro c hcHead hcEq
        exfalso
        cases as with
        | nil => simp at hcHead
        | cons a2 as2 =>
          simp only [List.head?_cons, Option.mem_def, Option.some.injEq] at hcHead
          subst hcHead
          subst hcEq
          subst ha'
          exact (List.chain'_cons.mp hchain).1 ⟨rfl, rfl⟩
      simp only [squashRuns, if_neg ha, hrec]
      rw [ha']

theorem trimHyphens_id (cs : List Char)
    (h1 : ∀ c ∈ cs.head?, c ≠ '-') (h2 : ∀ c ∈ cs.getLast?, c ≠ '-') :
    trimHyphens cs = cs := by
  unfold trimHyphens
  have e1 : cs.dropWhile (· = '-') = cs := by
    refine dropWhile_eq_self_of_head _ _ ?_
    intro c hc
    simpa using h1 c hc
  rw [e1]
  have e2 : cs.reverse.dropWhile (· = '-') = cs.reverse := by
    refine dropWhile_eq_self_of_head _ _ ?_
    intro c hc
    rw [List.head?_reverse] at hc
    simpa using h2 c hc
  rw [e2, List.reverse_reverse]

theorem ToSlug_data (s : String) :
    (ToSlug s).data = trimHyphens (squashRuns (s.data.map goToLower) false) := rfl

theorem ToSlug_fixed (u : String)
    (h1 : ∀ c ∈ u.data, isSlugChar c = true ∨ c = '-')
    (h2 : ∀ c ∈ u.data.head?, c ≠ '-')
    (h3 : ∀ c ∈ u.data.getLast?, c ≠ '-')
    (h4 : u.data.Chain' (fun x y => ¬(x = '-' ∧ y = '-'))) :
    ToSlug u = u := by
  have hmap : u.data.map goToLower = u.data := by
    calc u.data.map goToLower = u.data.map id :=
          List.map_congr_left (fun c hc => goToLower_fixed (h1 c hc))
      _ = u.data := List.map_id u.data
  have hsquash : squashRuns u.data false = u.data := by
    refine squashRuns_id u.data false h1 h4 ?_
    intro c _ _
    rfl
  have htrim : trimHyphens u.data = u.data := trimHyphens_id u.data h2 h3
  unfold ToSlug
  rw [hmap, hsquash, htrim]

theorem ToSlug_output_wf (s : String) :
    (∀ c ∈ (ToSlug s).data, isSlugChar c = true ∨ c = '-')
    ∧ (∀ c ∈ (ToSlug s).data.head?, c ≠ '-')
    ∧ (∀ c ∈ (ToSlug s).data.getLast?, c ≠ '-')
    ∧ (ToSlug s).data.Chain' (fun x y => ¬(x = '-' ∧ y = '-')) := by
  refine ⟨?_, ?_, ?_, ?_⟩
  · intro c hc
    rw [ToSlug_data] at hc
    exact squashRuns_chars _ false c ((trimHyphens_contained _).sublist.subset hc)
  · rw [ToSlug_data]
    exact trimHyphens_head _
  · rw [ToSlug_data]
    exact trimHyphens_getLast _
  · rw [ToSlug_data]
    exact List.Chain'.infix (squashRuns_no_adjacent _ false) (trimHyphens_contained _)

/-- C10.  The slugify transform is idempotent and its image is canonical:
`ToSlug (ToSlug s) = ToSlug s`, and `ToSlug s` contains only lowercase ASCII
letters, digits and single hyphen separators (no two adjacent hyphens), with
no leading or trailing hyphen. -/
theorem toslug_idempotent_canonical (s : String) :
    ToSlug (ToSlug s) = ToSlug s
    ∧ (∀ c ∈ (ToSlug s).data, isSlugChar c = true ∨ c = '-')
    ∧ (∀ c ∈ (ToSlug s).data.head?, c ≠ '-')
    ∧ (∀ c ∈ (ToSlug s).data.getLast?, c ≠ '-')
    ∧ (ToSlug s).data.Chain' (fun x y => ¬(x = '-' ∧ y = '-')) := by
  obtain ⟨w1, w2, w3, w4⟩ := ToSlug_output_wf s
  exact ⟨ToSlug_fixed (ToSlug s) w1 w2 w3 w4, w1, w2, w3, w4⟩

/-- C7 counterexample.  With filename-based slug derivation, the loaded
slug of file `My File.md` is the raw base name `My File`, which is not in
the image of the canonicalizing `ToSlug` transform (any `ToSlug` output is a
`ToSlug` fixed point by idempotence, but this slug is not fixed). -/
theorem derive_slug_filename_not_canonical_cex :
    deriveSlug "filename" "data/My File.md" [] = "My File"
    ∧ ToSlug (deriveSlug "filename" "data/My File.md" []) ≠
        deriveSlug "filename" "data/My File.md" [] := by
  constructor
  · rfl
  · intro h
    have : ToSlug "My File" = "My File" := h
    simp [ToSlug, squashRuns, trimHyphens, goToLower, isSlugChar] at this

/-- C7 amended.  Slug derivation applies the canonicalizing `ToSlug`
transform only in field mode: when the configured source is `field:<name>`
and the record has that field as a string, the slug is `ToSlug` of the field
value (hence canonical, i.e. a `ToSlug` fixed point); when the source is not
field-based the slug is the base filename with its extension trimmed,
without any slugification. -/
theorem derive_slug_amended (source path : String) (fields : List (String × GoValue))
    (s : String) :
    (goHasPrefix source "field:" = true →
      lookupGo fields (⟨source.data.drop 6⟩ : String) = some (GoValue.str s) →
      deriveSlug source path fields = ToSlug s
        ∧ ToSlug (deriveSlug source path fields) = deriveSlug source path fields)
    ∧ (goHasPrefix source "field:" = false →
      deriveSlug source path fields = goTrimSuffix (goBase path) (goExt (goBase path))) := by
  constructor
  · intro h1 h2
    have he : deriveSlug source path fields = ToSlug s := by
      unfold deriveSlug
      rw [h1, h2]
    refine ⟨he, ?_⟩
    rw [he]
    obtain ⟨w1, w2, w3, w4⟩ := ToSlug_output_wf s
    exact ToSlug_fixed (ToSlug s) w1 w2 w3 w4
  · intro h1
    unfold deriveSlug
    rw [h1]

/-- C7 amended, witness: concrete field-mode and filename-mode derivations. -/
theorem derive_slug_amended_witness :
    deriveSlug "field:title" "data/x.md" [("title", GoValue.str "My Tag")] = "my-tag"
    ∧ deriveSlug "filename" "data/My File.md" [] = "My File" := by
  constructor
  · have h := (derive_slug_amended "field:title" "data/x.md"
      [("title", GoValue.str "My Tag")] "My Tag").1 (by rfl) (by rfl)
    rw [h.1]
    rfl
  · have h := (derive_slug_amended "filename" "data/My File.md" [] "").2 (by rfl)
    rw [h]
    rfl

/-! ### Order lemmas for the slug comparator -/

theorem char_toNat_inj {a b : Char} (h : a.toNat = b.toNat) : a = b := by
  have h2 := congrArg Char.ofNat h
  rwa [Char.ofNat_toNat, Char.ofNat_toNat] at h2

theorem strLeB_total : ∀ x y : List Char, strLeB x y = true ∨ strLeB y x = true := by
  intro x
  induction x with
  | nil => intro y; left; rfl
  | cons a as ih =>
    intro y
    cases y with
    | nil => right; rfl
    | cons b bs =>
      rcases Nat.lt_trichotomy a.toNat b.toNat with h | h | h
      · left; simp [strLeB, h]
      · have h1 : ¬ a.toNat < b.toNat := by omega
        have h2 : ¬ b.toNat < a.toNat := by omega
        rcases ih bs with h3 | h3
        · left; simp [strLeB, h1, h2, h3]
        · right; simp [strLeB, h1, h2, h3]
      · right; simp [strLeB, h]

theorem strLeB_trans : ∀ x y z : List Char,
    strLeB x y = true → strLeB y z = true → strLeB x z = true := by
  intro x
  induction x with
  | nil => intro y z _ _; rfl
  | cons a as ih =>
    intro y z hxy hyz
    cases y with
    | nil => simp [strLeB] at hxy
    | cons b bs =>
      cases z with
      | nil => simp [strLeB] at hyz
      | cons c cs =>
        by_cases hba : b.toNat < a.toNat
        · simp [strLeB, hba, show ¬ a.toNat < b.toNat by omega] at hxy
        · by_cases hcb : c.toNat < b.toNat
          · simp [strLeB, hcb, show ¬ b.toNat < c.toNat by omega] at hyz
          · by_cases hac : a.toNat < c.toNat
            · simp [strLeB, hac]
            · have hab : ¬ a.toNat < b.toNat := by omega
              have hbc : ¬ b.toNat < c.toNat := by omega
              have hca : ¬ c.toNat < a.toNat := by omega
              simp only [strLeB, if_neg hab, if_neg hba] at hxy
              simp only [strLeB, if_neg hbc, if_neg hcb] at hyz
              simp only [strLeB, if_neg hac, if_neg hca]
              exact ih bs cs hxy hyz

theorem strLeB_antisymm : ∀ x y : List Char,
    strLeB x y = true → strLeB y x = true → x = y := by
  intro x
  induction x with
  | nil =>
    intro y _ hyx
    cases y with
    | nil => rfl
    | cons b bs => simp [strLeB] at hyx
  | cons a as ih =>
    intro y hxy hyx
    cases y with
    | nil => simp [strLeB] at hxy
    | cons b bs =>
      by_cases hab : a.toNat < b.toNat
      · simp [strLeB, hab, show ¬ b.toNat < a.toNat by omega] at hyx
      · by_cases hba : b.toNat < a.toNat
        · simp [strLeB, hba, hab] at hxy
        · have hEq : a = b := char_toNat_inj (by omega)
          simp only [strLeB, if_neg hab, if_neg hba] at hxy hyx
          rw [hEq, ih bs hxy hyx]

theorem string_data_inj {x y : String} (h : x.data = y.data) : x = y :=
  congrArg String.mk h

/-! ### Slug-distinctness of the grouping -/

theorem insertEntity_slugs (gs : List Entry) (val slug : String) (e : Entity) :
    (insertEntity gs val slug e).map Entry.Slug =
      if slug ∈ gs.map Entry.Slug then gs.map Entry.Slug
      else gs.map Entry.Slug ++ [slug] := by
  induction gs with
  | nil => simp [insertEntity]
  | cons g gs ih =>
    by_cases hg : g.Slug = slug
    · simp [insertEntity, hg]
    · simp only [insertEntity, if_neg hg, List.map_cons, ih]
      have hne : ¬ slug = g.Slug := fun h => hg h.symm
      by_cases hmem : slug ∈ gs.map Entry.Slug
      · rw [if_pos hmem, if_pos (List.mem_cons_of_mem _ hmem)]
      · rw [if_neg hmem, if_neg (by simp [List.mem_cons, hne, hmem]), List.cons_append]

theorem insertEntity_slugs_nodup (gs : List Entry) (val slug : String) (e : Entity)
    (h : (gs.map Entry.Slug).Nodup) :
    ((insertEntity gs val slug e).map Entry.Slug).Nodup := by
  rw [insertEntity_slugs]
  by_cases hmem : slug ∈ gs.map Entry.Slug
  · simpa [hmem] using h
  · simp only [hmem, if_false]
    simp [List.nodup_append, h, hmem]

theorem addOneValue_slugs_nodup (gs : List Entry) (e : Entity) (val : String)
    (h : (gs.map Entry.Slug).Nodup) :
    ((addOneValue gs e val).map Entry.Slug).Nodup := by
  unfold addOneValue
  by_cases hs : ToSlug val = ""
  · simpa [hs] using h
  · simpa [hs] using insertEntity_slugs_nodup gs val (ToSlug val) e h

theorem foldl_preserves {α β : Type} (P : β → Prop) (f : β → α → β)
    (hstep : ∀ b a, P b → P (f b a)) :
    ∀ (l : List α) (b : β), P b → P (l.foldl f b) := by
  intro l
  induction l with
  | nil => intro b hb; exact hb
  | cons a as ih => intro b hb; exact ih (f b a) (hstep b a hb)

theorem buildGroups_slugs_nodup (entities : List Entity) (tc : TaxonomyConfig)
    (enrichmentData : List (String × List (String × GoValue))) :
    ((buildGroups entities tc enrichmentData).map Entry.Slug).Nodup := by
  unfold buildGroups
  refine foldl_preserves (fun gs => (gs.map Entry.Slug).Nodup) _ ?_ entities [] (by simp)
  intro gs e hgs
  by_cases hInv : tc.Invert
  · simpa [hInv] using hgs
  · simp only [hInv, if_false]
    exact foldl_preserves (fun gs2 => (gs2.map Entry.Slug).Nodup)
      (fun gs2 val => addOneValue gs2 e val)
      (fun gs2 val h => addOneValue_slugs_nodup gs2 e val h) _ gs hgs

theorem filteredGroups_slugs_nodup (entities : List Entity) (tc : TaxonomyConfig)
    (enrichmentData : List (String × List (String × GoValue))) :
    ((filteredGroups entities tc enrichmentData).map Entry.Slug).Nodup :=
  ((List.filter_sublist _).map Entry.Slug).nodup
    (buildGroups_slugs_nodup entities tc enrichmentData)

/-! ### Claims C5, C4, C1 -/

/-- C5.  Override precedence: `extractValues` equals the spec-side reading
`extractValuesSpec` — when an override key is configured and the override
table has an entry for the entity's slug whose extraction (plain field or
`container[].sub` path) yields a non-empty value list, the taxonomy values
are exactly those override values; otherwise they are read from the raw
entity field as a single scalar or a list of scalars per the multi-value
flag (an absent field yields no values). -/
theorem extract_values_override_precedence (e : Entity) (tc : TaxonomyConfig)
    (enrichmentData : List (String × List (String × GoValue))) :
    extractValues e tc enrichmentData = extractValuesSpec e tc enrichmentData := by
  cases hl : lookupGo enrichmentData e.Slug with
  | none =>
    by_cases h0 : tc.EnrichmentOverrideField = "" <;>
      simp [extractValues, extractValuesSpec, hl, h0]
  | some ed =>
    by_cases h0 : tc.EnrichmentOverrideField = ""
    · simp [extractValues, extractValuesSpec, hl, h0]
    · by_cases hov : getEnrichmentOverrides ed tc.EnrichmentOverrideField = [] <;>
        simp [extractValues, extractValuesSpec, hl, h0, hov]

/-- C4.  Minimum-member filter: an entry is in the built taxonomy's Entry
list exactly when it is one of the grouped entries and its member count
reaches the configured threshold; in particular no under-threshold entry
ever appears, and every grouped entry at or above the threshold does. -/
theorem min_entities_filter (entities : List Entity) (tc : TaxonomyConfig)
    (enrichmentData : List (String × List (String × GoValue))) (entry : Entry) :
    entry ∈ (buildOne entities tc enrichmentData).Entries ↔
      entry ∈ buildGroups entities tc enrichmentData ∧
        tc.MinEntities ≤ (entry.Entities.length : Int) := by
  show entry ∈ sortEntries (filteredGroups entities tc enrichmentData) ↔ _
  rw [sortEntries, List.mem_insertionSort]
  simp [filteredGroups, List.mem_filter]

theorem sortEntries_pairwise_lt (l : List Entry) (h : (l.map Entry.Slug).Nodup) :
    (sortEntries l).Pairwise slugLt := by
  haveI : IsTotal Entry slugLe := ⟨fun a b => strLeB_total a.Slug.data b.Slug.data⟩
  haveI : IsTrans Entry slugLe :=
    ⟨fun a b c h1 h2 => strLeB_trans a.Slug.data b.Slug.data c.Slug.data h1 h2⟩
  have hsorted : (sortEntries l).Sorted slugLe := List.sorted_insertionSort slugLe l
  have hperm : (sortEntries l).Perm l := List.perm_insertionSort slugLe l
  have hnodup : ((sortEntries l).map Entry.Slug).Nodup :=
    ((hperm.map Entry.Slug).nodup_iff).mpr h
  have hne0 : ((sortEntries l).map Entry.Slug).Pairwise (fun a b => a ≠ b) := hnodup
  have hne : (sortEntries l).Pairwise (fun a b => a.Slug ≠ b.Slug) :=
    List.pairwise_map.mp hne0
  exact (List.Pairwise.and hsorted hne).imp (fun hab => hab)

/-- C1.  Taxonomy build determinism: the model `buildOne` is a pure function
of the entity list, configuration and override table, and its Entry sequence
is invariant under the (unordered) iteration order of the internal grouping
map — sorting ANY permutation `g` of the grouped-and-filtered entries yields
exactly `(buildOne ...).Entries` — and that sequence is strictly ascending
in slug. -/
theorem taxonomy_build_deterministic (entities : List Entity) (tc : TaxonomyConfig)
    (enrichmentData : List (String × List (String × GoValue))) (g : List Entry)
    (hg : g.Perm (filteredGroups entities tc enrichmentData)) :
    sortEntries g = (buildOne entities tc enrichmentData).Entries
    ∧ (buildOne entities tc enrichmentData).Entries.Pairwise slugLt := by
  have hnodupF := filteredGroups_slugs_nodup entities tc enrichmentData
  have hnodupG : (g.map Entry.Slug).Nodup := ((hg.map Entry.Slug).nodup_iff).mpr hnodupF
  have p1 : (sortEntries g).Pairwise slugLt := sortEntries_pairwise_lt g hnodupG
  have p2 : (sortEntries (filteredGroups entities tc enrichmentData)).Pairwise slugLt :=
    sortEntries_pairwise_lt _ hnodupF
  have hperm : (sortEntries g).Perm (sortEntries (filteredGroups entities tc enrichmentData)) :=
    (List.perm_insertionSort slugLe g).trans
      (hg.trans (List.perm_insertionSort slugLe _).symm)
  haveI : IsAntisymm Entry slugLt :=
    ⟨fun a b h1 h2 => absurd (string_data_inj (strLeB_antisymm _ _ h1.1 h2.1)) h1.2⟩
  exact ⟨List.eq_of_perm_of_sorted hperm p1 p2, p2⟩

/-- C1 witness: two entities grouped into two entries; feeding the grouped
entries to the sort in the opposite (simulated map-iteration) order still
yields the built Entry sequence, which is strictly slug-ascending. -/
theorem taxonomy_build_deterministic_witness :
    sortEntries [⟨"A", "a", [⟨"e2", [("tag", GoValue.str "A")]⟩]⟩,
        ⟨"B", "b", [⟨"e1", [("tag", GoValue.str "B")]⟩]⟩] =
      (buildOne [⟨"e1", [("tag", GoValue.str "B")]⟩, ⟨"e2", [("tag", GoValue.str "A")]⟩]
        ⟨"tags", "Tags", "Tag", "tag", false, 1, false, ""⟩ []).Entries
    ∧ (buildOne [⟨"e1", [("tag", GoValue.str "B")]⟩, ⟨"e2", [("tag", GoValue.str "A")]⟩]
        ⟨"tags", "Tags", "Tag", "tag", false, 1, false, ""⟩ []).Entries.Pairwise slugLt := by
  refine taxonomy_build_deterministic _ _ _ _ ?_
  have hfg : filteredGroups
      [⟨"e1", [("tag", GoValue.str "B")]⟩, ⟨"e2", [("tag", GoValue.str "A")]⟩]
      ⟨"tags", "Tags", "Tag", "tag", false, 1, false, ""⟩ [] =
      [⟨"B", "b", [⟨"e1", [("tag", GoValue.str "B")]⟩]⟩,
       ⟨"A", "a", [⟨"e2", [("tag", GoValue.str "A")]⟩]⟩] := rfl
  rw [hfg]
  exact List.Perm.swap _ _ _

/-! ### Claim C2: pagination invariant -/

theorem CP_TotalPages (entry : Entry) (page perPage : Nat) (tn : String) :
    (ComputePagination entry page perPage tn).TotalPages =
      if (entry.Entities.length + perPage - 1) / perPage = 0 then 1
      else (entry.Entities.length + perPage - 1) / perPage := rfl

theorem CP_StartIndex (entry : Entry) (page perPage : Nat) (tn : String) :
    (ComputePagination entry page perPage tn).StartIndex = (page - 1) * perPage := rfl

theorem CP_EndIndex (entry : Entry) (page perPage : Nat) (tn : String) :
    (ComputePagination entry page perPage tn).EndIndex =
      if (page - 1) * perPage + perPage > entry.Entities.length
      then entry.Entities.length else (page - 1) * perPage + perPage := rfl

theorem window_step (m B T : Nat) :
    min m T + ((if m + B > T then T else m + B) - m) = min (m + B) T := by
  rw [Nat.min_def, Nat.min_def]
  split_ifs <;> omega

theorem window_sum (T B : Nat) : ∀ P : Nat,
    ((List.range P).map
      (fun i => (if i * B + B > T then T else i * B + B) - i * B)).sum = min (P * B) T := by
  intro P
  induction P with
  | zero => simp
  | succ P ih =>
    rw [List.range_succ, List.map_append, List.sum_append]
    simp only [List.map_cons, List.map_nil, List.sum_cons, List.sum_nil, Nat.add_zero]
    rw [ih, Nat.succ_mul]
    exact window_step (P * B) B T

theorem ceil_mul_ge (T B : Nat) (hB : 0 < B) :
    T ≤ (max 1 ((T + B - 1) / B)) * B := by
  have hdm := Nat.div_add_mod (T + B - 1) B
  have hmod : (T + B - 1) % B < B := Nat.mod_lt _ hB
  rcases Nat.eq_zero_or_pos ((T + B - 1) / B) with hq | hq
  · rw [hq] at hdm
    have hT : T = 0 := by omega
    simp [hT]
  · rw [Nat.max_eq_right hq, Nat.mul_comm]
    generalize hm : B * ((T + B - 1) / B) = m at hdm
    omega

/-- C2.  Pagination invariant, for every entry and positive page size:
`TotalPages = max 1 ⌈count / perPage⌉` (one page even when empty, and
independent of the requested page), the window sizes `EndIndex - StartIndex`
of pages 1..TotalPages sum to the member count, and the hub-page URL omits
the page-number suffix exactly on page 1. -/
theorem pagination_invariant (entry : Entry) (perPage : Nat) (taxonomyName : String)
    (hB : 0 < perPage) :
    (ComputePagination entry 1 perPage taxonomyName).TotalPages =
        max 1 ((entry.Entities.length + perPage - 1) / perPage)
    ∧ (∀ page, (ComputePagination entry page perPage taxonomyName).TotalPages =
        (ComputePagination entry 1 perPage taxonomyName).TotalPages)
    ∧ ((List.range (ComputePagination entry 1 perPage taxonomyName).TotalPages).map
        (fun i => (ComputePagination entry (i + 1) perPage taxonomyName).EndIndex
          - (ComputePagination entry (i + 1) perPage taxonomyName).StartIndex)).sum
        = entry.Entities.length
    ∧ HubPageURL taxonomyName entry.Slug 1 =
        "/" ++ taxonomyName ++ "/" ++ entry.Slug ++ ".html"
    ∧ (∀ p, 1 < p → HubPageURL taxonomyName entry.Slug p =
        "/" ++ taxonomyName ++ "/" ++ entry.Slug ++ "-page-" ++ toString p ++ ".html") := by
  have hTP : (ComputePagination entry 1 perPage taxonomyName).TotalPages =
      max 1 ((entry.Entities.length + perPage - 1) / perPage) := by
    rw [CP_TotalPages]
    generalize (entry.Entities.length + perPage - 1) / perPage = q
    rcases Nat.eq_zero_or_pos q with hq | hq
    · simp [hq]
    · rw [if_neg (by omega), Nat.max_eq_right hq]
  refine ⟨hTP, fun page => rfl, ?_, ?_, ?_⟩
  · have hmap : ∀ i : Nat,
        (ComputePagination entry (i + 1) perPage taxonomyName).EndIndex
          - (ComputePagination entry (i + 1) perPage taxonomyName).StartIndex =
        (if i * perPage + perPage > entry.Entities.length
          then entry.Entities.length else i * perPage + perPage) - i * perPage := by
      intro i
      rw [CP_EndIndex, CP_StartIndex, Nat.add_sub_cancel]
    calc ((List.range (ComputePagination entry 1 perPage taxonomyName).TotalPages).map
          (fun i => (ComputePagination entry (i + 1) perPage taxonomyName).EndIndex
            - (ComputePagination entry (i + 1) perPage taxonomyName).StartIndex)).sum
        = ((List.range (ComputePagination entry 1 perPage taxonomyName).TotalPages).map
          (fun i => (if i * perPage + perPage > entry.Entities.length
            then entry.Entities.length else i * perPage + perPage) - i * perPage)).sum := by
          exact congrArg List.sum (List.map_congr_left (fun i _ => hmap i))
      _ = min ((ComputePagination entry 1 perPage taxonomyName).TotalPages * perPage)
            entry.Entities.length := window_sum _ _ _
      _ = entry.Entities.length := by
          rw [hTP]
          exact Nat.min_eq_right (ceil_mul_ge entry.Entities.length perPage hB)
  · rfl
  · intro p hp
    unfold HubPageURL
    rw [if_neg (by omega)]

/-- C2 witness: 5 members, page size 2 — three pages, windows 2+2+1. -/
theorem pagination_invariant_witness :
    (0 : Nat) < 2
    ∧ ((ComputePagination ⟨"N", "n",
        [⟨"a", []⟩, ⟨"b", []⟩, ⟨"c", []⟩, ⟨"d", []⟩, ⟨"e", []⟩]⟩ 1 2 "t").TotalPages =
        max 1 ((5 + 2 - 1) / 2)
      ∧ ((List.range (ComputePagination ⟨"N", "n",
          [⟨"a", []⟩, ⟨"b", []⟩, ⟨"c", []⟩, ⟨"d", []⟩, ⟨"e", []⟩]⟩ 1 2 "t").TotalPages).map
          (fun i => (ComputePagination ⟨"N", "n",
              [⟨"a", []⟩, ⟨"b", []⟩, ⟨"c", []⟩, ⟨"d", []⟩, ⟨"e", []⟩]⟩ (i + 1) 2 "t").EndIndex
            - (ComputePagination ⟨"N", "n",
              [⟨"a", []⟩, ⟨"b", []⟩, ⟨"c", []⟩, ⟨"d", []⟩, ⟨"e", []⟩]⟩ (i + 1) 2 "t").StartIndex)).sum
          = 5) := by
  constructor
  · decide
  · have h := pagination_invariant
      ⟨"N", "n", [⟨"a", []⟩, ⟨"b", []⟩, ⟨"c", []⟩, ⟨"d", []⟩, ⟨"e", []⟩]⟩ 2 "t" (by decide)
    exact ⟨h.1, h.2.2.1⟩

/-! ### Claim C6: letter-group partition -/

theorem appendToGroup_keys (gs : List (String × List Entry)) (L : String) (e : Entry) :
    (appendToGroup gs L e).map Prod.fst =
      if L ∈ gs.map Prod.fst then gs.map Prod.fst else gs.map Prod.fst ++ [L] := by
  induction gs with
  | nil => simp [appendToGroup]
  | cons g gs ih =>
    obtain ⟨k, v⟩ := g
    by_cases hk : k = L
    · simp [appendToGroup, hk]
    · simp only [appendToGroup, if_neg hk, List.map_cons, ih]
      have hne : ¬ L = k := fun h => hk h.symm
      by_cases hmem : L ∈ gs.map Prod.fst
      · rw [if_pos hmem, if_pos (List.mem_cons_of_mem _ hmem)]
      · rw [if_neg hmem, if_neg (by simp [List.mem_cons, hne, hmem]), List.cons_append]

theorem appendToGroup_lookup_same (gs : List (String × List Entry)) (L : String) (e : Entry) :
    lookupGo (appendToGroup gs L e) L = some ((lookupGo gs L).getD [] ++ [e]) := by
  induction gs with
  | nil => simp [appendToGroup, lookupGo]
  | cons g gs ih =>
    obtain ⟨k, v⟩ := g
    by_cases hk : k = L
    · simp [appendToGroup, lookupGo, hk]
    · simp [appendToGroup, lookupGo, hk, ih]

theorem appendToGroup_lookup_other (gs : List (String × List Entry)) (L : String) (e : Entry)
    (letter : String) (hne : letter ≠ L) :
    lookupGo (appendToGroup gs L e) letter = lookupGo gs letter := by
  induction gs with
  | nil =>
    simp only [appendToGroup, lookupGo]
    rw [if_neg (Ne.symm hne)]
  | cons g gs ih =>
    obtain ⟨k, v⟩ := g
    by_cases hk : k = L
    · subst hk
      simp only [appendToGroup, if_pos rfl, lookupGo]
      rw [if_neg (Ne.symm hne), if_neg (Ne.symm hne)]
    · simp only [appendToGroup, if_neg hk, lookupGo]
      by_cases hkl : k = letter
      · rw [if_pos hkl, if_pos hkl]
      · rw [if_neg hkl, if_neg hkl, ih]

theorem letterState_invariant (entries : List Entry) :
    ((entries.foldl addToLetterGroups ([], [])).2.map Prod.fst =
        (entries.foldl addToLetterGroups ([], [])).1)
    ∧ (entries.foldl addToLetterGroups ([], [])).1.Nodup
    ∧ (∀ L : String,
        (L ∈ (entries.foldl addToLetterGroups ([], [])).1 →
          lookupGo (entries.foldl addToLetterGroups ([], [])).2 L =
            some (entries.filter (fun e => letterOf e = some L)))
        ∧ (L ∉ (entries.foldl addToLetterGroups ([], [])).1 →
          lookupGo (entries.foldl addToLetterGroups ([], [])).2 L = none
            ∧ entries.filter (fun e => letterOf e = some L) = [])) := by
  induction entries using List.reverseRecOn with
  | nil => exact ⟨rfl, List.nodup_nil, fun L => ⟨fun h => absurd h (by simp), fun _ => ⟨rfl, rfl⟩⟩⟩
  | append_singleton es e ih =>
    obtain ⟨ihKeys, ihNodup, ihLook⟩ := ih
    rw [List.foldl_append] at *
    simp only [List.foldl_cons, List.foldl_nil] at *
    cases hLo : letterOf e with
    | none =>
      have hstate : addToLetterGroups (es.foldl addToLetterGroups ([], [])) e =
          es.foldl addToLetterGroups ([], []) := by
        unfold addToLetterGroups
        rw [hLo]
      rw [hstate]
      refine ⟨ihKeys, ihNodup, fun L => ⟨fun hmem => ?_, fun hmem => ?_⟩⟩
      · rw [(ihLook L).1 hmem, List.filter_append]
        simp [hLo]
      · obtain ⟨h1, h2⟩ := (ihLook L).2 hmem
        refine ⟨h1, ?_⟩
        rw [List.filter_append, h2]
        simp [hLo]
    | some L0 =>
      have hstate : addToLetterGroups (es.foldl addToLetterGroups ([], [])) e =
          ((if (lookupGo (es.foldl addToLetterGroups ([], [])).2 L0).isSome
              then (es.foldl addToLetterGroups ([], [])).1
              else (es.foldl addToLetterGroups ([], [])).1 ++ [L0]),
            appendToGroup (es.foldl addToLetterGroups ([], [])).2 L0 e) := by
        unfold addToLetterGroups
        rw [hLo]
      rw [hstate]
      by_cases hmem0 : L0 ∈ (es.foldl addToLetterGroups ([], [])).1
      · have hsome : (lookupGo (es.foldl addToLetterGroups ([], [])).2 L0).isSome := by
          rw [(ihLook L0).1 hmem0]
          rfl
        simp only [hsome, if_true]
        refine ⟨?_, ihNodup, fun L => ⟨fun hmem => ?_, fun hmem => ?_⟩⟩
        · rw [appendToGroup_keys, ihKeys, if_pos hmem0]
        · by_cases hL : L = L0
          · subst hL
            rw [appendToGroup_lookup_same, (ihLook L).1 hmem, List.filter_append]
            simp [hLo]
          · rw [appendToGroup_lookup_other _ _ _ _ hL, (ihLook L).1 hmem, List.filter_append]
            have : ¬ (some L0 = some L) := fun h => hL (Option.some.inj h).symm
            simp [hLo, this]
        · have hL : L ≠ L0 := fun h => hmem (h ▸ hmem0)
          obtain ⟨h1, h2⟩ := (ihLook L).2 hmem
          refine ⟨by rw [appendToGroup_lookup_other _ _ _ _ hL]; exact h1, ?_⟩
          rw [List.filter_append, h2]
          have : ¬ (some L0 = some L) := fun h => hL (Option.some.inj h).symm
          simp [hLo, this]
      · have hnone : lookupGo (es.foldl addToLetterGroups ([], [])).2 L0 = none :=
          ((ihLook L0).2 hmem0).1
        have hnotSome : ¬ (lookupGo (es.foldl addToLetterGroups ([], [])).2 L0).isSome := by
          rw [hnone]
          simp
        simp only [hnotSome, if_false, Bool.false_eq_true]
        refine ⟨?_, ?_, fun L => ⟨fun hmem => ?_, fun hmem => ?_⟩⟩
        · rw [appendToGroup_keys, ihKeys, if_neg hmem0]
        · simp [List.nodup_append, ihNodup, hmem0]
        · by_cases hL : L = L0
          · subst hL
            rw [appendToGroup_lookup_same, hnone, List.filter_append,
              ((ihLook L).2 hmem0).2]
            simp [hLo]
          · have hmemL : L ∈ (es.foldl addToLetterGroups ([], [])).1 := by
              rcases List.mem_append.mp hmem with h | h
              · exact h
              · exact absurd (List.mem_singleton.mp h) hL
            rw [appendToGroup_lookup_other _ _ _ _ hL, (ihLook L).1 hmemL, List.filter_append]
            have : ¬ (some L0 = some L) := fun h => hL (Option.some.inj h).symm
            simp [hLo, this]
        · have hL : L ≠ L0 := fun h => hmem (h ▸ List.mem_append_right _ (by simp))
          have hmemL : L ∉ (es.foldl addToLetterGroups ([], [])).1 :=
            fun h => hmem (List.mem_append_left _ h)
          obtain ⟨h1, h2⟩ := (ihLook L).2 hmemL
          refine ⟨by rw [appendToGroup_lookup_other _ _ _ _ hL]; exact h1, ?_⟩
          rw [List.filter_append, h2]
          have : ¬ (some L0 = some L) := fun h => hL (Option.some.inj h).symm
          simp [hLo, this]

/-- C6 counterexample.  `GroupByLetter` skips entries whose display name is
empty (`len(entry.Name) == 0` triggers `continue`), so an Entry list
containing an empty-named entry is NOT partitioned: that entry appears in no
Letter Group at all, refuting "every Entry appears in exactly one Letter
Group" for arbitrary Entry lists. -/
theorem letter_group_empty_name_cex :
    GroupByLetter [⟨"", "", []⟩] = []
    ∧ ¬ ∃ g, g ∈ GroupByLetter [⟨"", "", []⟩] ∧ (⟨"", "", []⟩ : Entry) ∈ g.Entries := by
  have h : GroupByLetter [(⟨"", "", []⟩ : Entry)] = [] := rfl
  refine ⟨h, ?_⟩
  rintro ⟨g, hg, _⟩
  rw [h] at hg
  exact absurd hg (List.not_mem_nil g)

/-- C6 amended.  Letter grouping partitions the entries that have a
non-empty display name: groups are strictly ordered by bucket label; each
group holds exactly the input entries whose bucket label (first character
uppercased when a letter, sentinel `#` otherwise) is its letter, in input
order; an entry with empty name is in no group; and every entry with a
non-empty name lies in exactly one group, the one labelled by its bucket. -/
theorem letter_group_partition_amended (entries : List Entry) :
    (GroupByLetter entries).Pairwise
        (fun g1 g2 => goStrLe g1.Letter g2.Letter ∧ g1.Letter ≠ g2.Letter)
    ∧ (∀ g ∈ GroupByLetter entries,
        g.Entries = entries.filter (fun e => letterOf e = some g.Letter))
    ∧ (∀ e ∈ entries, letterOf e = none → ∀ g ∈ GroupByLetter entries, e ∉ g.Entries)
    ∧ (∀ e ∈ entries, ∀ L, letterOf e = some L →
        ∃ g, g ∈ GroupByLetter entries ∧ g.Letter = L ∧ e ∈ g.Entries ∧
          ∀ g2 ∈ GroupByLetter entries, e ∈ g2.Entries → g2 = g) := by
  obtain ⟨hKeys, hNodup, hLook⟩ := letterState_invariant entries
  haveI : IsTotal String goStrLe := ⟨fun a b => strLeB_total a.data b.data⟩
  haveI : IsTrans String goStrLe :=
    ⟨fun a b c h1 h2 => strLeB_trans a.data b.data c.data h1 h2⟩
  have hGB : GroupByLetter entries =
      (sortStringsGo (entries.foldl addToLetterGroups ([], [])).1).map
        (fun letter =>
          ⟨letter, (lookupGo (entries.foldl addToLetterGroups ([], [])).2 letter).getD []⟩) :=
    rfl
  have hperm : (sortStringsGo (entries.foldl addToLetterGroups ([], [])).1).Perm
      (entries.foldl addToLetterGroups ([], [])).1 := List.perm_insertionSort goStrLe _
  have hsorted : (sortStringsGo (entries.foldl addToLetterGroups ([], [])).1).Sorted goStrLe :=
    List.sorted_insertionSort goStrLe _
  have hnodupS : (sortStringsGo (entries.foldl addToLetterGroups ([], [])).1).Nodup :=
    (hperm.nodup_iff).mpr hNodup
  have hEntriesOf : ∀ g ∈ GroupByLetter entries,
      g.Entries = entries.filter (fun e => letterOf e = some g.Letter)
      ∧ g = (⟨g.Letter,
          (lookupGo (entries.foldl addToLetterGroups ([], [])).2 g.Letter).getD []⟩ :
            LetterGroup) := by
    intro g hg
    rw [hGB] at hg
    obtain ⟨L, hLs, rfl⟩ := List.mem_map.mp hg
    have hLmem : L ∈ (entries.foldl addToLetterGroups ([], [])).1 := (hperm.mem_iff).mp hLs
    rw [(hLook L).1 hLmem]
    exact ⟨rfl, rfl⟩
  refine ⟨?_, fun g hg => (hEntriesOf g hg).1, ?_, ?_⟩
  · rw [hGB]
    refine List.pairwise_map.mpr ?_
    exact (List.Pairwise.and hsorted hnodupS).imp (fun hab => hab)
  · intro e _ hnone g hg hmem
    rw [(hEntriesOf g hg).1] at hmem
    have := (List.mem_filter.mp hmem).2
    rw [hnone] at this
    simp at this
  · intro e he L hLo
    have hfil : e ∈ entries.filter (fun x => letterOf x = some L) :=
      List.mem_filter.mpr ⟨he, by simp [hLo]⟩
    have hLmem : L ∈ (entries.foldl addToLetterGroups ([], [])).1 := by
      by_contra hc
      have := ((hLook L).2 hc).2
      rw [this] at hfil
      exact absurd hfil (List.not_mem_nil e)
    have hLs : L ∈ sortStringsGo (entries.foldl addToLetterGroups ([], [])).1 :=
      (hperm.mem_iff).mpr hLmem
    refine ⟨⟨L, (lookupGo (entries.foldl addToLetterGroups ([], [])).2 L).getD []⟩,
      ?_, rfl, ?_, ?_⟩
    · rw [hGB]
      exact List.mem_map.mpr ⟨L, hLs, rfl⟩
    · show e ∈ (lookupGo (entries.foldl addToLetterGroups ([], [])).2 L).getD []
      rw [(hLook L).1 hLmem]
      exact hfil
    · intro g2 hg2 hmem2
      obtain ⟨hE2, hshape⟩ := hEntriesOf g2 hg2
      rw [hE2] at hmem2
      have hL2 : letterOf e = some g2.Letter := by
        have := (List.mem_filter.mp hmem2).2
        simpa using this
      have : g2.Letter = L := Option.some.inj (hL2 ▸ hLo)
      rw [hshape, this]

/-- C6 amended, witness: two entries, one alphabetic and one starting with a
digit; the alphabetic entry lies in exactly the group labelled `A`. -/
theorem letter_group_partition_amended_witness :
    ∃ g, g ∈ GroupByLetter [⟨"apple", "apple", []⟩, ⟨"7up", "7up", []⟩]
      ∧ g.Letter = "A" ∧ (⟨"apple", "apple", []⟩ : Entry) ∈ g.Entries
      ∧ ∀ g2 ∈ GroupByLetter [⟨"apple", "apple", []⟩, ⟨"7up", "7up", []⟩],
          (⟨"apple", "apple", []⟩ : Entry) ∈ g2.Entries → g2 = g := by
  have h := (letter_group_partition_amended
    [⟨"apple", "apple", []⟩, ⟨"7up", "7up", []⟩]).2.2.2
    ⟨"apple", "apple", []⟩ (List.mem_cons_self _ _) "A" (by decide)
  exact h

/-! ### Claim C3: sitemap splitting and conservation -/

theorem chunkFuel_join {α : Type} (size : Nat) (hsize : 0 < size) :
    ∀ (fuel : Nat) (l : List α), l.length ≤ fuel → (chunkFuel size fuel l).flatten = l := by
  intro fuel
  induction fuel with
  | zero =>
    intro l hl
    have : l = [] := List.eq_nil_of_length_eq_zero (Nat.le_zero.mp hl)
    subst this
    rfl
  | succ fuel ih =>
    intro l hl
    cases l with
    | nil => rfl
    | cons x xs =>
      have hdrop : ((x :: xs).drop size).length ≤ fuel := by
        rw [List.length_drop]
        simp only [List.length_cons] at hl ⊢
        omega
      simp only [chunkFuel, List.flatten_cons, ih _ hdrop, List.take_append_drop]

theorem chunkFuel_length {α : Type} (size : Nat) (hsize : 0 < size) :
    ∀ (fuel : Nat) (l : List α), l.length ≤ fuel →
      (chunkFuel size fuel l).length = (l.length + size - 1) / size := by
  intro fuel
  induction fuel with
  | zero =>
    intro l hl
    have : l = [] := List.eq_nil_of_length_eq_zero (Nat.le_zero.mp hl)
    subst this
    simp [chunkFuel, Nat.div_eq_of_lt (show size - 1 < size by omega)]
  | succ fuel ih =>
    intro l hl
    cases l with
    | nil => simp [chunkFuel, Nat.div_eq_of_lt (show size - 1 < size by omega)]
    | cons x xs =>
      have hdrop : ((x :: xs).drop size).length ≤ fuel := by
        rw [List.length_drop]
        simp only [List.length_cons] at hl ⊢
        omega
      simp only [chunkFuel, List.length_cons]
      rw [ih _ hdrop, List.length_drop, List.length_cons]
      by_cases hle : xs.length + 1 ≤ size
      · have hL : (xs.length + 1 - size + size - 1) / size = 0 :=
          Nat.div_eq_of_lt (by omega)
        have hR : (xs.length + 1 + size - 1) / size = 1 :=
          Nat.div_eq_of_lt_le (by omega) (by omega)
        rw [hL, hR]
      · have h1 : xs.length + 1 - size + size - 1 = xs.length := by omega
        have h2 : xs.length + 1 + size - 1 = xs.length + size := by omega
        rw [h1, h2, Nat.add_div_right _ hsize]

theorem chunkFuel_sizes {α : Type} (size : Nat) (hsize : 0 < size) :
    ∀ (fuel : Nat) (l : List α), l.length ≤ fuel →
      ∀ c ∈ chunkFuel size fuel l, c.length ≤ size := by
  intro fuel
  induction fuel with
  | zero =>
    intro l hl c hc
    have : l = [] := List.eq_nil_of_length_eq_zero (Nat.le_zero.mp hl)
    subst this
    simp [chunkFuel] at hc
  | succ fuel ih =>
    intro l hl c hc
    cases l with
    | nil => simp [chunkFuel] at hc
    | cons x xs =>
      have hdrop : ((x :: xs).drop size).length ≤ fuel := by
        rw [List.length_drop]
        simp only [List.length_cons] at hl ⊢
        omega
      simp only [chunkFuel, List.mem_cons] at hc
      rcases hc with rfl | hc
      · simp [List.length_take]
      · exact ih _ hdrop c hc

theorem enumFrom_map_fst {α β : Type} (g : Nat → β) :
    ∀ (l : List α) (n : Nat),
      (List.enumFrom n l).map (fun p => g p.1) = (List.range' n l.length).map g := by
  intro l
  induction l with
  | nil => intro n; rfl
  | cons x xs ih =>
    intro n
    simp only [List.enumFrom_cons, List.length_cons, List.range'_succ, List.map_cons]
    rw [ih (n + 1)]

theorem enumFrom_map_snd_f {α β : Type} (g : α → β) :
    ∀ (l : List α) (n : Nat), (List.enumFrom n l).map (fun p => g p.2) = l.map g := by
  intro l
  induction l with
  | nil => intro n; rfl
  | cons x xs ih =>
    intro n
    simp only [List.enumFrom_cons, List.map_cons, ih (n + 1)]

theorem enum_map_fst {α β : Type} (g : Nat → β) (l : List α) :
    l.enum.map (fun p => g p.1) = (List.range l.length).map g := by
  rw [List.range_eq_range']
  exact enumFrom_map_fst g l 0

theorem enum_map_snd_f {α β : Type} (g : α → β) (l : List α) :
    l.enum.map (fun p => g p.2) = l.map g :=
  enumFrom_map_snd_f g l 0

theorem enumFrom_map_snd {α : Type} :
    ∀ (l : List α) (n : Nat), (List.enumFrom n l).map (fun p => p.2) = l := by
  intro l
  induction l with
  | nil => intro n; rfl
  | cons x xs ih =>
    intro n
    simp only [List.enumFrom_cons, List.map_cons, ih (n + 1)]

theorem enum_map_snd {α : Type} (l : List α) : l.enum.map (fun p => p.2) = l :=
  enumFrom_map_snd l 0

/-- C3.  Sitemap splitting: with at most `M` accumulated entries a single
`sitemap.xml` holds them all; with more, the output is the index document
followed by `⌈count / M⌉` chunk files with 1-based sequence filenames whose
contents, concatenated, are the accumulated entries in order, each chunk of
at most `M` entries, and the index holds exactly one reference per chunk
file, every one stamped with the first accumulated entry's date.  In both
cases the `<url>` entries across all non-index files total the input count. -/
theorem sitemap_split_conservation (entries : List SitemapEntry) (baseURL : String)
    (M : Int) (hM : 0 < M) :
    (entries.length ≤ M.toNat →
      GenerateSitemapFiles entries baseURL M =
        [⟨"sitemap.xml", SitemapContent.urlset entries⟩])
    ∧ ((GenerateSitemapFiles entries baseURL M).map urlCount).sum = entries.length
    ∧ (∀ f ∈ GenerateSitemapFiles entries baseURL M, urlCount f ≤ M.toNat)
    ∧ (M.toNat < entries.length →
        ((GenerateSitemapFiles entries baseURL M).filter
            (fun f => !isIndexFile f)).map SitemapFile.Filename =
          (List.range ((entries.length + M.toNat - 1) / M.toNat)).map
            (fun i => "sitemap-" ++ toString (i + 1) ++ ".xml")
        ∧ (((GenerateSitemapFiles entries baseURL M).filter
            (fun f => !isIndexFile f)).map fileEntries).flatten = entries
        ∧ ((GenerateSitemapFiles entries baseURL M).filter isIndexFile).map indexRefs =
          [(List.range ((entries.length + M.toNat - 1) / M.toNat)).map
            (fun i => ⟨baseURL ++ "/" ++ ("sitemap-" ++ toString (i + 1) ++ ".xml"),
              firstLastmod entries⟩)]) := by
  have hm0 : (0 : Nat) < M.toNat := by omega
  have hMle : ¬ (M ≤ 0) := by omega
  have hmdef : (if M ≤ 0 then (50000 : Nat) else M.toNat) = M.toNat := if_neg hMle
  by_cases hsplit : entries.length ≤ M.toNat
  · have hG : GenerateSitemapFiles entries baseURL M =
        [⟨"sitemap.xml", SitemapContent.urlset entries⟩] := by
      unfold GenerateSitemapFiles
      rw [hmdef, if_pos hsplit]
    refine ⟨fun _ => hG, ?_, ?_, fun h => absurd hsplit (by omega)⟩
    · rw [hG]
      simp [urlCount]
    · rw [hG]
      intro f hf
      rw [List.mem_singleton.mp hf]
      simpa [urlCount] using hsplit
  · have hG : GenerateSitemapFiles entries baseURL M =
        ⟨"sitemap.xml", SitemapContent.indexSet
            ((chunkEntries entries M.toNat).enum.map (fun p =>
              ⟨baseURL ++ "/" ++ ("sitemap-" ++ toString (p.1 + 1) ++ ".xml"),
                firstLastmod entries⟩))⟩ ::
          (chunkEntries entries M.toNat).enum.map (fun p =>
            ⟨"sitemap-" ++ toString (p.1 + 1) ++ ".xml", SitemapContent.urlset p.2⟩) := by
      unfold GenerateSitemapFiles
      rw [hmdef, if_neg hsplit]
    have hchlen : (chunkEntries entries M.toNat).length =
        (entries.length + M.toNat - 1) / M.toNat :=
      chunkFuel_length M.toNat hm0 entries.length entries (Nat.le_refl _)
    have hchjoin : (chunkEntries entries M.toNat).flatten = entries :=
      chunkFuel_join M.toNat hm0 entries.length entries (Nat.le_refl _)
    have hchsizes : ∀ c ∈ chunkEntries entries M.toNat, c.length ≤ M.toNat :=
      chunkFuel_sizes M.toNat hm0 entries.length entries (Nat.le_refl _)
    refine ⟨fun h => absurd h hsplit, ?_, ?_, fun _ => ⟨?_, ?_, ?_⟩⟩
    · rw [hG]
      simp only [List.map_cons, List.sum_cons, urlCount]
      rw [List.map_map]
      rw [show (urlCount ∘ fun p : Nat × List SitemapEntry =>
          (⟨"sitemap-" ++ toString (p.1 + 1) ++ ".xml",
            SitemapContent.urlset p.2⟩ : SitemapFile)) =
          (fun p : Nat × List SitemapEntry => List.length p.2) from rfl]
      rw [enum_map_snd_f List.length (chunkEntries entries M.toNat)]
      rw [← List.length_flatten, hchjoin]
      omega
    · rw [hG]
      intro f hf
      rcases List.mem_cons.mp hf with rfl | hf
      · simp [urlCount]
      · obtain ⟨p, hp, rfl⟩ := List.mem_map.mp hf
        have hp2 : p.2 ∈ chunkEntries entries M.toNat := by
          have hmm : p.2 ∈ (chunkEntries entries M.toNat).enum.map
              (fun q : Nat × List SitemapEntry => q.2) :=
            List.mem_map.mpr ⟨p, hp, rfl⟩
          rw [enum_map_snd] at hmm
          exact hmm
        simpa [urlCount] using hchsizes p.2 hp2
    · rw [hG]
      rw [List.filter_cons_of_neg (by simp [isIndexFile])]
      rw [List.filter_eq_self.mpr (by
        intro f hf
        obtain ⟨p, _, rfl⟩ := List.mem_map.mp hf
        simp [isIndexFile])]
      rw [List.map_map]
      rw [show (SitemapFile.Filename ∘ fun p : Nat × List SitemapEntry =>
          (⟨"sitemap-" ++ toString (p.1 + 1) ++ ".xml",
            SitemapContent.urlset p.2⟩ : SitemapFile)) =
          (fun p : Nat × List SitemapEntry =>
            (fun i => "sitemap-" ++ toString (i + 1) ++ ".xml") p.1) from rfl]
      rw [enum_map_fst (fun i => "sitemap-" ++ toString (i + 1) ++ ".xml")
        (chunkEntries entries M.toNat), hchlen]
    · rw [hG]
      rw [List.filter_cons_of_neg (by simp [isIndexFile])]
      rw [List.filter_eq_self.mpr (by
        intro f hf
        obtain ⟨p, _, rfl⟩ := List.mem_map.mp hf
        simp [isIndexFile])]
      rw [List.map_map]
      rw [show (fileEntries ∘ fun p : Nat × List SitemapEntry =>
          (⟨"sitemap-" ++ toString (p.1 + 1) ++ ".xml",
            SitemapContent.urlset p.2⟩ : SitemapFile)) =
          (fun p : Nat × List SitemapEntry => p.2) from rfl]
      rw [enum_map_snd (chunkEntries entries M.toNat), hchjoin]
    · rw [hG]
      rw [List.filter_cons_of_pos (by simp [isIndexFile])]
      rw [List.filter_eq_nil_iff.mpr (by
        intro f hf
        obtain ⟨p, _, rfl⟩ := List.mem_map.mp hf
        simp [isIndexFile])]
      simp only [List.map_cons, List.map_nil, indexRefs]
      rw [show (fun p : Nat × List SitemapEntry =>
          (⟨baseURL ++ "/" ++ ("sitemap-" ++ toString (p.1 + 1) ++ ".xml"),
            firstLastmod entries⟩ : SitemapIndexRef)) =
          (fun p : Nat × List SitemapEntry =>
            (fun i => (⟨baseURL ++ "/" ++ ("sitemap-" ++ toString (i + 1) ++ ".xml"),
              firstLastmod entries⟩ : SitemapIndexRef)) p.1) from rfl]
      rw [enum_map_fst (fun i =>
          (⟨baseURL ++ "/" ++ ("sitemap-" ++ toString (i + 1) ++ ".xml"),
            firstLastmod entries⟩ : SitemapIndexRef))
        (chunkEntries entries M.toNat), hchlen]

/-- C3 witness: three entries with a per-file maximum of 2 split into an
index plus chunk files `sitemap-1.xml`, `sitemap-2.xml`, conserving all
three URL entries. -/
theorem sitemap_split_conservation_witness :
    ((GenerateSitemapFiles [⟨"u1", "2024-01-01", "", ""⟩, ⟨"u2", "2024-01-02", "", ""⟩,
        ⟨"u3", "2024-01-03", "", ""⟩] "https://x" 2).map urlCount).sum = 3
    ∧ ((GenerateSitemapFiles [⟨"u1", "2024-01-01", "", ""⟩, ⟨"u2", "2024-01-02", "", ""⟩,
        ⟨"u3", "2024-01-03", "", ""⟩] "https://x" 2).filter
          (fun f => !isIndexFile f)).map SitemapFile.Filename =
        (List.range ((3 + (2 : Int).toNat - 1) / (2 : Int).toNat)).map
          (fun i => "sitemap-" ++ toString (i + 1) ++ ".xml")
    ∧ (((GenerateSitemapFiles [⟨"u1", "2024-01-01", "", ""⟩, ⟨"u2", "2024-01-02", "", ""⟩,
        ⟨"u3", "2024-01-03", "", ""⟩] "https://x" 2).filter
          (fun f => !isIndexFile f)).map fileEntries).flatten =
        [⟨"u1", "2024-01-01", "", ""⟩, ⟨"u2", "2024-01-02", "", ""⟩,
          ⟨"u3", "2024-01-03", "", ""⟩] := by
  have h := sitemap_split_conservation
    [⟨"u1", "2024-01-01", "", ""⟩, ⟨"u2", "2024-01-02", "", ""⟩,
      ⟨"u3", "2024-01-03", "", ""⟩] "https://x" 2 (by decide)
  have hs := h.2.2.2 (by decide)
  exact ⟨h.2.1, hs.1, hs.2.1⟩

/-! ### Claim C8: slug uniqueness at load time -/

/-- C8 counterexample.  Two records whose designated slug fields
canonicalize to the same slug are BOTH kept by the loader: the loaded
entity list has two entities with slug `my-tag`, so slug uniqueness is not
enforced and no duplicate is rejected or skipped. -/
theorem loader_keeps_duplicate_slugs_cex :
    (loadEntities "field:title" "data"
      [⟨"a.md", false, Except.ok [("title", GoValue.str "My Tag")]⟩,
       ⟨"b.md", false, Except.ok [("title", GoValue.str "my tag")]⟩]).map Entity.Slug
      = ["my-tag", "my-tag"]
    ∧ ¬ ((loadEntities "field:title" "data"
      [⟨"a.md", false, Except.ok [("title", GoValue.str "My Tag")]⟩,
       ⟨"b.md", false, Except.ok [("title", GoValue.str "my tag")]⟩]).map Entity.Slug).Nodup := by
  have he : (loadEntities "field:title" "data"
      [⟨"a.md", false, Except.ok [("title", GoValue.str "My Tag")]⟩,
       ⟨"b.md", false, Except.ok [("title", GoValue.str "my tag")]⟩]).map Entity.Slug
      = ["my-tag", "my-tag"] := rfl
  refine ⟨he, ?_⟩
  rw [he]
  decide

theorem insertOverwrite_lookup_same (m : List (String × Entity)) (k : String) (v : Entity) :
    lookupGo (insertOverwrite m k v) k = some v := by
  induction m with
  | nil => simp [insertOverwrite, lookupGo]
  | cons p m ih =>
    obtain ⟨k0, v0⟩ := p
    by_cases hk : k0 = k
    · simp [insertOverwrite, lookupGo, hk]
    · simp [insertOverwrite, lookupGo, hk, ih]

theorem insertOverwrite_lookup_other (m : List (String × Entity)) (k : String) (v : Entity)
    (s : String) (hs : k ≠ s) :
    lookupGo (insertOverwrite m k v) s = lookupGo m s := by
  induction m with
  | nil => simp [insertOverwrite, lookupGo, hs]
  | cons p m ih =>
    obtain ⟨k0, v0⟩ := p
    by_cases hk : k0 = k
    · subst hk
      simp [insertOverwrite, lookupGo, hs]
    · simp only [insertOverwrite, if_neg hk, lookupGo]
      by_cases hk0 : k0 = s
      · rw [if_pos hk0, if_pos hk0]
      · rw [if_neg hk0, if_neg hk0, ih]

theorem slugMapFold_lookup (s : String) :
    ∀ (entities : List Entity) (m : List (String × Entity)),
      lookupGo (entities.foldl (fun m e => insertOverwrite m e.Slug e) m) s =
        match (entities.filter (fun e => e.Slug = s)).getLast? with
        | some e => some e
        | none => lookupGo m s := by
  intro entities
  induction entities with
  | nil => intro m; rfl
  | cons e es ih =>
    intro m
    simp only [List.foldl_cons]
    rw [ih]
    by_cases hs : e.Slug = s
    · rw [List.filter_cons_of_pos (by simp [hs]), List.getLast?_cons]
      cases hrest : (es.filter (fun e => e.Slug = s)).getLast? with
      | some x => simp
      | none =>
        simp only [Option.getD_none]
        rw [← hs]
        exact insertOverwrite_lookup_same m e.Slug e
    · rw [List.filter_cons_of_neg (by simp [hs])]
      cases hrest : (es.filter (fun e => e.Slug = s)).getLast? with
      | some x => simp
      | none => simp [insertOverwrite_lookup_other m e.Slug e s hs]

/-- C8 amended.  The loader enforces no slug uniqueness: it keeps exactly
one entity per successfully parsed `.md` file, duplicates included; the
deterministic resolution happens downstream, where the builder's slug map
(`slugMap[e.Slug] = e` over the loaded list in order) is last-wins —
looking up a slug yields the LAST loaded entity carrying it. -/
theorem loader_no_dedup_slug_map_last_wins (source dataDir : String)
    (files : List MdFile) (entities : List Entity) (slug : String) :
    (loadEntities source dataDir files).length = (files.filter keptFile).length
    ∧ lookupGo (buildSlugMap entities) slug =
        (entities.filter (fun e => e.Slug = slug)).getLast? := by
  constructor
  · unfold loadEntities
    induction files with
    | nil => rfl
    | cons f fs ih =>
      by_cases hskip : (f.isDir || !(goHasSuffix f.name ".md")) = true
      · have hk : keptFile f = false := by
          rcases (Bool.or_eq_true _ _).mp hskip with h | h
          · simp [keptFile, h]
          · simp [keptFile, (Bool.not_eq_true' _).mp h]
        rw [List.filter_cons_of_neg (by simp [hk])]
        simp only [List.filterMap_cons]
        rw [if_pos hskip]
        exact ih
      · have hdir : f.isDir = false := by
          revert hskip
          cases f.isDir <;> simp
        have hsuf : goHasSuffix f.name ".md" = true := by
          revert hskip
          cases h : goHasSuffix f.name ".md" <;> simp
        cases hp : f.parsed with
        | error err =>
          have hk : keptFile f = false := by simp [keptFile, hp]
          rw [List.filter_cons_of_neg (by simp [hk])]
          simp only [List.filterMap_cons, hp]
          rw [if_neg hskip]
          exact ih
        | ok fields =>
          have hk : keptFile f = true := by simp [keptFile, hp, hdir, hsuf]
          rw [List.filter_cons_of_pos (by simp [hk])]
          simp only [List.filterMap_cons, hp]
          rw [if_neg hskip]
          simp only [List.length_cons]
          rw [ih]
  · unfold buildSlugMap
    rw [slugMapFold_lookup]
    cases (entities.filter (fun e => e.Slug = slug)).getLast? with
    | some e => rfl
    | none => rfl

/-! ### Claim C9: build-pass failure semantics -/

theorem seqAll_ok_iff {ε : Type} (l : List (Except ε Unit)) :
    seqAll l = Except.ok () ↔ ∀ r ∈ l, r = Except.ok () := by
  induction l with
  | nil => simp [seqAll]
  | cons r rs ih =>
    cases r with
    | ok u =>
      cases u
      simp [seqAll, ih]
    | error e => simp [seqAll]

theorem renderTaxonomyPages_ok_iff (t : TaxOutcome) :
    renderTaxonomyPages t = Except.ok () ↔
      ((∀ r ∈ t.hubPages, r = Except.ok ())
        ∧ t.indexPage = Except.ok ()
        ∧ (t.hasLetters = true → ∀ r ∈ t.letterPages, r = Except.ok ())) := by
  unfold renderTaxonomyPages
  cases hhub : seqAll t.hubPages with
  | error e =>
    constructor
    · intro h
      exact absurd h (by simp)
    · rintro ⟨h1, -, -⟩
      rw [(seqAll_ok_iff t.hubPages).mpr h1] at hhub
      exact Except.noConfusion hhub
  | ok u =>
    cases u
    have hhubs : ∀ r ∈ t.hubPages, r = Except.ok () := (seqAll_ok_iff t.hubPages).mp hhub
    cases hidx : t.indexPage with
    | error e =>
      constructor
      · intro h
        exact Except.noConfusion h
      · rintro ⟨-, h2, -⟩
        exact Except.noConfusion h2
    | ok u =>
      cases u
      cases hgate : t.hasLetters with
      | true =>
        rw [if_pos rfl, seqAll_ok_iff]
        constructor
        · intro h
          exact ⟨hhubs, rfl, fun _ => h⟩
        · rintro ⟨-, -, h3⟩
          exact h3 rfl
      | false =>
        rw [if_neg (by simp)]
        constructor
        · intro _
          exact ⟨hhubs, rfl, fun hgt => absurd hgt (by simp)⟩
        · intro _
          rfl

/-- C9.  Failure semantics of the build pass: a failing entity page only
increments the error count — the pass outcome is completely independent of
the entity outcomes, so `Build` returns no error on their account — while
the pass succeeds exactly when every structural page production (every hub
page, taxonomy index and gated letter page of every taxonomy, every
all-entities page, and the homepage) succeeds, so any structural failure
makes `Build` return an error. -/
theorem build_failure_semantics (entityResults : List (Except String Unit))
    (taxonomies : List TaxOutcome) (allEntitiesPages : List (Except String Unit))
    (homepage : Except String Unit) :
    (buildPass entityResults taxonomies allEntitiesPages homepage).1 =
        entityResults.countP (fun r => !exceptIsOk r)
    ∧ ((buildPass entityResults taxonomies allEntitiesPages homepage).2 = Except.ok () ↔
        ((∀ t ∈ taxonomies, (∀ r ∈ t.hubPages, r = Except.ok ())
            ∧ t.indexPage = Except.ok ()
            ∧ (t.hasLetters = true → ∀ r ∈ t.letterPages, r = Except.ok ()))
          ∧ (∀ r ∈ allEntitiesPages, r = Except.ok ())
          ∧ homepage = Except.ok ()))
    ∧ (∀ entityResults2 : List (Except String Unit),
        (buildPass entityResults2 taxonomies allEntitiesPages homepage).2 =
          (buildPass entityResults taxonomies allEntitiesPages homepage).2) := by
  refine ⟨rfl, ?_, fun _ => rfl⟩
  show (match seqAll (taxonomies.map renderTaxonomyPages) with
    | Except.error e => Except.error e
    | Except.ok _ =>
      match seqAll allEntitiesPages with
      | Except.error e => Except.error e
      | Except.ok _ => homepage) = Except.ok () ↔ _
  cases htax : seqAll (taxonomies.map renderTaxonomyPages) with
  | error e =>
    constructor
    · intro h
      exact absurd h (by simp)
    · rintro ⟨h1, -, -⟩
      have hall : ∀ r ∈ taxonomies.map renderTaxonomyPages, r = Except.ok () := by
        intro r hr
        obtain ⟨t, ht, rfl⟩ := List.mem_map.mp hr
        exact (renderTaxonomyPages_ok_iff t).mpr (h1 t ht)
      rw [(seqAll_ok_iff _).mpr hall] at htax
      exact Except.noConfusion htax
  | ok u =>
    cases u
    have htaxes : ∀ t ∈ taxonomies, (∀ r ∈ t.hubPages, r = Except.ok ())
        ∧ t.indexPage = Except.ok ()
        ∧ (t.hasLetters = true → ∀ r ∈ t.letterPages, r = Except.ok ()) := by
      intro t ht
      exact (renderTaxonomyPages_ok_iff t).mp
        ((seqAll_ok_iff _).mp htax _ (List.mem_map_of_mem _ ht))
    cases hall : seqAll allEntitiesPages with
    | error e =>
      constructor
      · intro h
        exact absurd h (by simp)
      · rintro ⟨-, h2, -⟩
        rw [(seqAll_ok_iff _).mpr h2] at hall
        exact Except.noConfusion hall
    | ok u =>
      cases u
      have halls := (seqAll_ok_iff _).mp hall
      constructor
      · intro h
        exact ⟨htaxes, halls, h⟩
      · rintro ⟨-, -, h3⟩
        exact h3
